import Mathlib

/-!
Verification development for grep's PCRE matcher core (`pcresearch.c`) and its
multibyte helper routines (`searchutils.c`).

The embedding models buffers as total functions `Int → Nat` (byte at each
position; the program may legitimately read the sentinel byte just before the
buffer), byte positions as `Nat` (with the one possibly-negative read tracked
separately), and the external PCRE2 engine as an abstract pure function of the
searched region and its flags, as required by the backend contract (a pure
function of its inputs).  Loops are modelled with explicit fuel; the theorems
establish that the fuel supplied by the top-level entry points suffices, which
is exactly the termination content of the corresponding C loops.

Executions are instrumented: they return the number of engine invocations, the
number of encoding-barrier reports, and the list of byte positions read, so
that resource-bound and memory-safety claims can be stated about them.
-/

namespace GrepPcre

/-- Outcome of one engine invocation (`pcre2_match` as wrapped by `jit_exec`):
a nonnegative return with the ovector `(s, t)`, `PCRE2_ERROR_NOMATCH`, a
bad-UTF-8 error (the range recognised by `bad_utf8_from_pcre2`, carrying
`pcre2_get_startchar`, the number of valid bytes before the error), or any
other (fatal) error code. -/
inductive EngOut
  | found (s t : Nat)
  | nomatch
  | barrier (validBytes : Nat)
  | fatal (code : Int)
deriving DecidableEq

/-- The abstract single-shot engine: arguments are the searched region
(`subject[0 .. search_bytes)` as a byte list), the start offset inside it,
the `PCRE2_NOTBOL` flag, and whether this is the bounded re-match (with
`PCRE2_NO_UTF_CHECK | PCRE2_NOTEOL`).  Per the backend contract it is a pure
function of these inputs. -/
abbrev Engine := List Nat → Nat → Bool → Bool → EngOut

/-- Instrumentation record: number of engine invocations, number of
encoding-barrier reports handled, byte positions read from the buffer. -/
structure Stats where
  calls : Nat
  barriers : Nat
  reads : List Nat
deriving DecidableEq

def Stats.add (a b : Stats) : Stats :=
  ⟨a.calls + b.calls, a.barriers + b.barriers, a.reads ++ b.reads⟩

/-- Overwrite the ovector of a successful outcome, as `Pexecute` does when it
consults the precomputed empty-match table (`sub[0] = sub[1] = search_offset`
and, in the barrier case, `sub[0] = valid_bytes; sub[1] = 0`). -/
def withSub (e : EngOut) (s t : Nat) : EngOut :=
  match e with
  | .found _ _ => .found s t
  | x => x

/-- The byte region `[s, s+n)` of the buffer, as handed to the engine. -/
def regionOf (buf : Int → Nat) (s n : Nat) : List Nat :=
  (List.range n).map (fun i => buf ((s + i : Nat) : Int))

/-- The positions read when the engine scans the region `[s, s+n)`. -/
def regionReads (s n : Nat) : List Nat :=
  (List.range n).map (fun i => s + i)

/-- The skip-ahead loop of `Pexecute`
(`while (localeinfo.sbclen[to_uchar (*p)] == -1) p++`): advance `p` past bytes
classified `-1` (impossible lead bytes).  Returns the stop position and the
positions read; the fuel supplied by `innerLoop` covers the loop because the
line-terminator byte at `line_end` is never classified `-1`. -/
def skipBadR (loc : Nat → Int) (buf : Int → Nat) : Nat → Nat → Nat × List Nat
  | 0, p => (p, [])
  | fuel+1, p =>
    if loc (buf (p : Int)) = -1 then
      let r := skipBadR loc buf fuel (p + 1)
      (r.1, p :: r.2)
    else (p, [p])

/-- `rawmemchr (p, eolbyte)`: position of the first `eol` byte at or after
`p`, together with the positions read.  The caller's precondition (the last
buffer byte is the line terminator) makes the fuel sufficient. -/
def findEolR (buf : Int → Nat) (eol : Nat) : Nat → Nat → Option Nat × List Nat
  | 0, _ => (none, [])
  | fuel+1, p =>
    if buf (p : Int) = eol then (some p, [p])
    else
      let r := findEolR buf eol fuel (p + 1)
      (r.1, p :: r.2)

/-- Number of `eol` bytes in positions `[p, p+n)` — the number of lines of the
buffer when applied to `[0, size)` with a terminator-ended buffer. -/
def countEol (buf : Int → Nat) (eol : Nat) : Nat → Nat → Nat
  | _, 0 => 0
  | p, n + 1 => (if buf (p : Int) = eol then 1 else 0) + countEol buf eol (p + 1) n

/-- Result of the inner (encoding-barrier) loop of `Pexecute`: either the
break value `e` together with the value of `subject` at the break, or fuel
exhaustion (shown unreachable under the stated preconditions). -/
inductive InnerRes
  | fuelOut
  | brk (e : EngOut) (subject : Nat)
deriving DecidableEq

/-- The inner `for (;;)` loop of `Pexecute` over one line `[.., lineEnd)`:
skip impossible lead bytes, take the empty-subject shortcut at `line_end`,
otherwise invoke the engine; on a bad-UTF-8 report (when
`MATCH_INVALID_UTF` is off, `miu = false`) run the bounded re-match over the
valid prefix and advance `subject` past the offending byte
(`subject += valid_bytes + 1`). -/
def innerLoop (miu : Bool) (loc : Nat → Int) (buf : Int → Nat) (eng : Engine)
    (emptyM : Bool → EngOut) (lineEnd : Nat) :
    Nat → Nat → Nat → Bool → InnerRes × Stats
  | 0, _, _, _ => (.fuelOut, ⟨0, 0, []⟩)
  | fuel+1, p, subject, bol =>
    let sk := skipBadR loc buf (lineEnd + 1 - p) p
    let p1 := sk.1
    let subject1 := if p1 = p then subject else p1
    let bol1 := if p1 = p then bol else false
    let off := p1 - subject1
    if p1 = lineEnd then
      (.brk (withSub (emptyM bol1) off off) subject1, ⟨0, 0, sk.2⟩)
    else
      let notbol := !bol1
      let n := lineEnd - subject1
      let e := eng (regionOf buf subject1 n) off notbol false
      let st1 : Stats := ⟨1, 0, sk.2 ++ regionReads subject1 n⟩
      match e with
      | .barrier vb =>
        if miu then (.brk (.barrier vb) subject1, st1)
        else
          let st2 : Stats := ⟨1, 1, st1.reads⟩
          if off ≤ vb then
            let e2 := if vb = 0 then withSub (emptyM bol1) vb 0
                      else eng (regionOf buf subject1 vb) off notbol true
            let st3 : Stats := if vb = 0 then st2
                               else ⟨2, 1, st2.reads ++ regionReads subject1 vb⟩
            if e2 = .nomatch then
              let rest := innerLoop miu loc buf eng emptyM lineEnd fuel
                            (subject1 + vb + 1) (subject1 + vb + 1) false
              (rest.1, st3.add rest.2)
            else (.brk e2 subject1, st3)
          else
            let rest := innerLoop miu loc buf eng emptyM lineEnd fuel
                          p1 (subject1 + vb + 1) bol1
            (rest.1, st2.add rest.2)
      | e' => (.brk e' subject1, st1)

/-- The internal state of `Pexecute` at the moment a successful match breaks
the loops: the final `subject`, the ovector `sub[0], sub[1]` (relative to
`subject`), and the current line bounds. -/
structure RawMatch where
  subject : Nat
  sub0 : Nat
  sub1 : Nat
  lineStart : Nat
  lineEnd : Nat
deriving DecidableEq

/-- Result of the outer (per-line) loop of `Pexecute`. -/
inductive OuterRes
  | foundRaw (raw : RawMatch)
  | notFound
  | engineError (e : EngOut)
  | adminFuelOut
  | adminNoEol
deriving DecidableEq

/-- The outer `do … while (p < buf + size)` loop of `Pexecute`: find the line
end, run the inner loop, and on `PCRE2_ERROR_NOMATCH` advance
`bol = true; p = subject = line_start = line_end + 1` to the next line. -/
def outerLoop (miu : Bool) (loc : Nat → Int) (buf : Int → Nat) (eng : Engine)
    (emptyM : Bool → EngOut) (eol : Nat) (size : Nat) :
    Nat → Nat → Nat → Nat → Bool → OuterRes × Stats
  | 0, _, _, _, _ => (.adminFuelOut, ⟨0, 0, []⟩)
  | fuel+1, p, subject, lineStart, bol =>
    match findEolR buf eol (size - p) p with
    | (none, rs) => (.adminNoEol, ⟨0, 0, rs⟩)
    | (some lineEnd, rs) =>
      let inn := innerLoop miu loc buf eng emptyM lineEnd
                   (lineEnd + 2 - subject) p subject bol
      let st1 := Stats.add ⟨0, 0, rs⟩ inn.2
      match inn.1 with
      | .fuelOut => (.adminFuelOut, st1)
      | .brk e subj =>
        match e with
        | .nomatch =>
          if lineEnd + 1 < size then
            let rest := outerLoop miu loc buf eng emptyM eol size fuel
                          (lineEnd + 1) (lineEnd + 1) (lineEnd + 1) true
            (rest.1, st1.add rest.2)
          else (.notFound, st1)
        | .found s t => (.foundRaw ⟨subj, s, t, lineStart, lineEnd⟩, st1)
        | err => (.engineError err, st1)

/-- Observable result of `Pexecute`: a match (the returned offset `beg - buf`
and `*match_size`, plus the raw internal match state for specification
purposes), no match (`-1`), a fatal engine error (the `die` paths), or a fuel
artifact (shown unreachable under the preconditions). -/
inductive PexecRes
  | found (offset msize : Nat) (raw : RawMatch)
  | notFound
  | engineError (e : EngOut)
  | adminFuelOut
  | adminNoEol
deriving DecidableEq

/-- Full instrumented result of `Pexecute`.  `reads` is over `Int` because the
initial begin-of-line test reads the byte just before the scan start
(`bol = p[-1] == eolbyte`), which is position `-1` when scanning starts at the
buffer's first byte. -/
structure PexecRun where
  res : PexecRes
  calls : Nat
  barriers : Nat
  reads : List Int
deriving DecidableEq

/-- `Pexecute (vcp, buf, size, match_size, start_ptr)` from `pcresearch.c`:
line-by-line adaptive scan.  `startPtr = some s` models a non-null resume
pointer at `buf + s`; `emptyM` is the compiled pattern's precomputed
empty-match table; `miu` is the build-time `MATCH_INVALID_UTF` constant.
Reporting follows the source: with a resume pointer the exact span
(`beg = subject + sub[0]`, `end = subject + sub[1]`), otherwise the whole
containing line (`beg = line_start`, `end = line_end + 1`), returning
`beg - buf` and storing `end - beg` in `*match_size`. -/
def Pexecute (miu : Bool) (loc : Nat → Int) (eol : Nat) (eng : Engine)
    (emptyM : Bool → EngOut) (buf : Int → Nat) (size : Nat)
    (startPtr : Option Nat) : PexecRun :=
  let start := startPtr.getD 0
  let bol := buf ((start : Int) - 1) == eol
  let o := outerLoop miu loc buf eng emptyM eol size (size + 1) start 0 0 bol
  let reads : List Int := ((start : Int) - 1) :: o.2.reads.map Int.ofNat
  match o.1 with
  | .foundRaw raw =>
    let beg := if startPtr.isSome then raw.subject + raw.sub0 else raw.lineStart
    let fin := if startPtr.isSome then raw.subject + raw.sub1 else raw.lineEnd + 1
    ⟨.found beg (fin - beg) raw, o.2.calls, o.2.barriers, reads⟩
  | .notFound => ⟨.notFound, o.2.calls, o.2.barriers, reads⟩
  | .engineError e => ⟨.engineError e, o.2.calls, o.2.barriers, reads⟩
  | .adminFuelOut => ⟨.adminFuelOut, o.2.calls, o.2.barriers, reads⟩
  | .adminNoEol => ⟨.adminNoEol, o.2.calls, o.2.barriers, reads⟩

/-- The empty-match table computed by `Pcompile`:
`empty_match[false] = jit_exec (pc, "", 0, 0, PCRE2_NOTBOL)` and
`empty_match[true] = jit_exec (pc, "", 0, 0, 0)`, i.e. one engine invocation
on the empty subject per begin-of-line flag value. -/
def pcEmpty (eng : Engine) : Bool → EngOut :=
  fun b => eng [] 0 (!b) false

/-! ## The resource-adaptive invoker `jit_exec` -/

/-- Classification of one `pcre2_match` return as seen by `jit_exec`:
`PCRE2_ERROR_JIT_STACKLIMIT`, `PCRE2_ERROR_DEPTHLIMIT`, or any other code
(success count or other error), which is returned unchanged. -/
inductive MatchCode
  | stacklimit
  | depthlimit
  | other (e : Int)
deriving DecidableEq

/-- Build-time constants of the platform and the PCRE2 build: `IDX_MAX`,
`SIZE_MAX`, the default depth limit reported by
`pcre2_config (PCRE2_CONFIG_DEPTHLIMIT, ·)`, and `UINT32_MAX` (the range of
the `uint32_t` holding the depth limit, for the `ckd_mul` overflow test). -/
structure JitConfig where
  idxMax : Nat
  sizeMax : Nat
  depthDefault : Nat
  uintMax : Nat
deriving DecidableEq

/-- `jitstack_max = MIN (IDX_MAX, SIZE_MAX - (STACK_GROWTH_RATE - 1))` with
`STACK_GROWTH_RATE = 8192`. -/
def jitstackMax (cfg : JitConfig) : Nat :=
  min cfg.idxMax (cfg.sizeMax - 8191)

/-- The mutable engine resources held in `struct pcre_comp`: the JIT stack
size `pc->jit_stack_size`, and the depth limit stored in the match context
(`none` models a `NULL` `mcontext`, i.e. the engine's built-in default). -/
structure JitState where
  jitStackSize : Nat
  depthLimit : Option Nat
deriving DecidableEq

/-- `jit_exec` from `pcresearch.c`: retry `pcre2_match` (abstracted as `jeng`,
a pure function of the current resource ceilings; the subject arguments are
fixed within one `jit_exec` call and are baked into `jeng`).  On
`JIT_STACKLIMIT` with `jit_stack_size ≤ jitstack_max / 2`, double the stack
and retry; on `DEPTHLIMIT`, read the build-time default limit, double it
(propagating the error if `ckd_mul` overflows `uint32_t`), store it in the
match context and retry; return every other code.  Fuel models the
`while (true)` loop; `none` means the loop has not returned within the given
number of iterations. -/
def jit_exec (cfg : JitConfig) (jeng : Nat → Option Nat → MatchCode) :
    Nat → JitState → Option (MatchCode × JitState)
  | 0, _ => none
  | fuel+1, s =>
    match jeng s.jitStackSize s.depthLimit with
    | .stacklimit =>
      if s.jitStackSize ≤ jitstackMax cfg / 2 then
        jit_exec cfg jeng fuel ⟨s.jitStackSize * 2, s.depthLimit⟩
      else some (.stacklimit, s)
    | .depthlimit =>
      if cfg.uintMax < 2 * cfg.depthDefault then some (.depthlimit, s)
      else jit_exec cfg jeng fuel ⟨s.jitStackSize, some (2 * cfg.depthDefault)⟩
    | .other e => some (.other e, s)

/-- The `while (true)` loop of `jit_exec` never returns, whatever iteration
bound is imposed. -/
def JitDiverges (cfg : JitConfig) (jeng : Nat → Option Nat → MatchCode)
    (s : JitState) : Prop :=
  ∀ fuel, jit_exec cfg jeng fuel s = none

/-! ## The compile-time checks of `Pcompile` -/

/-- Fatal compile-time rejections of `Pcompile` (`die (EXIT_TROUBLE, …)`):
unsupported locale, embedded line terminator in the pattern, or an engine
compile error. -/
inductive CompileErr
  | unsupportedLocale
  | multilinePattern
  | badPattern
deriving DecidableEq

/-- The compiled pattern description returned by `Pcompile`: the precomputed
empty-match table and the initial JIT stack size (32 KiB). -/
structure PC where
  empty_match : Bool → EngOut
  jit_stack_size : Nat

/-- `rawmemchr`: index of the first occurrence of `c` in the list (callers
guarantee a sentinel occurrence, as `Pcompile`'s pattern is followed by a
newline byte). -/
def rawmemchrIdx (c : Nat) : List Nat → Nat
  | [] => 0
  | b :: r => if b = c then 0 else rawmemchrIdx c r + 1

/-- The bytes of the whole-line wrapper `"^(?:"` (sizes omit the trailing
NUL, as in the source). -/
def xpre : List Nat := [94, 40, 63, 58]

/-- The bytes of the whole-line wrapper suffix `")$"`. -/
def xsuf : List Nat := [41, 36]

/-- The bytes of the whole-word wrapper prefix. -/
def wpre : List Nat := [40, 63, 60, 33, 92, 119, 41, 40, 63, 58]

/-- The bytes of the whole-word wrapper suffix. -/
def wsuf : List Nat := [41, 40, 63, 33, 92, 119, 41]

/-- `Pcompile` from `pcresearch.c`, as far as its control flow decides
acceptance: the locale checks (`-P supports only unibyte and UTF-8 locales`),
the embedded-newline rejection
(`rawmemchr (pattern, '\n') != patlim` ⇒ `the -P option only supports a
single pattern`), the textual whole-line / whole-word wrapping (the path
without `PCRE2_EXTRA_MATCH_LINE`), the engine compile (abstracted by
`compileOk`), and the two empty-subject invocations filling `empty_match`.
The pattern is `pat` (its `size` bytes), followed in memory by a `'\n'`
sentinel as the caller guarantees. -/
def Pcompile (unicodeOk multibyte usingUtf8 matchLines matchWords : Bool)
    (compileOk : List Nat → Bool) (eng : Engine) (pat : List Nat) :
    Except CompileErr PC :=
  if multibyte ∧ ¬ unicodeOk then .error .unsupportedLocale
  else if multibyte ∧ ¬ usingUtf8 then .error .unsupportedLocale
  else if rawmemchrIdx 10 (pat ++ [10]) ≠ pat.length then .error .multilinePattern
  else
    let pat2 := if matchLines then xpre ++ pat ++ xsuf
                else if matchWords then wpre ++ pat ++ wsuf
                else pat
    if compileOk pat2 = false then .error .badPattern
    else .ok ⟨pcEmpty eng, 32 * 1024⟩

/-! ## Multibyte boundary utilities (`searchutils.c`) -/

/-- A UTF-8 continuation byte: `(b & 0xc0) == 0x80`. -/
abbrev isCont (b : Nat) : Prop := 128 ≤ b ∧ b < 192

/-- Modelled from the spec: the length of the multibyte character starting at
position `s`, with `avail` bytes available — the behaviour of the external
libc `mbrlen` (via `imbrlen` in `search.h`, which is declared but whose
implementation is outside this repository) in a UTF-8 locale.  Returns `none`
for an invalid or truncated sequence (the `-1` / `-2` returns), following
strict UTF-8: no continuation or overlong lead as first byte, range checks on
the second byte excluding overlong forms, surrogates and values above
`U+10FFFF`. -/
def utf8declen (buf : Int → Nat) (s avail : Int) : Option Nat :=
  let b0 := buf s % 256
  let b1 := buf (s + 1) % 256
  let b2 := buf (s + 2) % 256
  let b3 := buf (s + 3) % 256
  if b0 < 128 then if 1 ≤ avail then some 1 else none
  else if b0 < 194 then none
  else if b0 < 224 then
    if 2 ≤ avail ∧ isCont b1 then some 2 else none
  else if b0 < 240 then
    if 3 ≤ avail ∧ isCont b1 ∧ isCont b2 ∧
       (b0 = 224 → 160 ≤ b1) ∧ (b0 = 237 → b1 < 160) then some 3 else none
  else if b0 < 245 then
    if 4 ≤ avail ∧ isCont b1 ∧ isCont b2 ∧ isCont b3 ∧
       (b0 = 240 → 144 ≤ b1) ∧ (b0 = 244 → b1 < 144) then some 4 else none
  else none

/-- The backward scan of `mb_goback`'s UTF-8 branch: the smallest
`i ∈ {1, 2, 3}` with `(cur[-i] & 0xc0) != 0x80`, or `none` if the `for` loop
runs out (all three preceding bytes are continuations). -/
def findNonCont (buf : Int → Nat) (cur : Int) : Option Nat :=
  if ¬ isCont (buf (cur - 1) % 256) then some 1
  else if ¬ isCont (buf (cur - 2) % 256) then some 2
  else if ¬ isCont (buf (cur - 3) % 256) then some 3
  else none

/-- The forward scan of `mb_goback` in non-UTF-8 multibyte locales: decode
characters from `*mb_start` (treating decode failures as single bytes) until
reaching or passing `cur`.  `mbClen` abstracts `mb_clen`.  Returns
`(p0, p, clen)`, the start of the last character, the position after it, and
its length. -/
def mbGobackFwd (mbClen : Int → Int → Int) (cur endp : Int) :
    Nat → Int → Int × Int × Int
  | 0, p => (p, p, 1)
  | fuel+1, p =>
    let c0 := mbClen p (endp - p)
    let clen := if c0 < 0 then 1 else c0
    let q := p + clen
    if q < cur then mbGobackFwd mbClen cur endp fuel q
    else (p, q, clen)

/-- Result of `mb_goback`: the returned byte count and the updated
`*mb_start`. -/
structure GoBack where
  dist : Int
  mbStart : Int
deriving DecidableEq

/-- `mb_goback` from `searchutils.c`.  Per its documentation, it returns the
number of bytes needed to go back from `cur` to the start of the multibyte
character that contains the byte addressed by `cur` (so `0` when `cur` is at
a character boundary), updating `*mb_start`.  In a UTF-8 locale it scans at
most 3 bytes backward for a non-continuation byte, checks that the length
implied by that putative lead byte reaches through `*cur`
(`(~cur[-i] & 0xff) >> (7 - i) == 0`), and validates with one decode;
otherwise it scans forward from `*mb_start`. -/
def mb_goback (usingUtf8 : Bool) (mbClen : Int → Int → Int)
    (buf : Int → Nat) (mbStart cur endp : Int) : GoBack :=
  if cur ≤ mbStart then ⟨cur - mbStart, mbStart⟩
  else if usingUtf8 then
    let pp :=
      if isCont (buf cur % 256) then
        match findNonCont buf cur with
        | some i =>
          if 255 - buf (cur - (i : Int)) % 256 < 2 ^ (7 - i) then
            match utf8declen buf (cur - (i : Int)) (endp - (cur - (i : Int))) with
            | some clen => (cur - (i : Int), cur - (i : Int) + clen)
            | none => (mbStart, cur)
          else (mbStart, cur)
        | none => (mbStart, cur)
      else (mbStart, cur)
    ⟨if pp.2 = cur then 0 else cur - pp.1, pp.2⟩
  else
    let r := mbGobackFwd mbClen cur endp (cur - mbStart).toNat mbStart
    ⟨if r.2.1 = cur then 0 else cur - r.1, r.2.1⟩

/-- The locale-derived tables and decoders used by the word-constituent
helpers: `localeinfo.multibyte`, `localeinfo.using_utf8`, the `sbwordchar`
table filled by `wordinit`, `localeinfo.sbclen`, the word-constituency test
on wide characters (`wc == L'_' || iswalnum (wc)`), and the abstract external
decoders `mbrtowc` and `mb_clen`. -/
structure WordTables where
  multibyte : Bool
  usingUtf8 : Bool
  sbwordchar : Nat → Bool
  sbclen : Nat → Int
  wordcharWc : Nat → Bool
  mbtowc : Int → Int → Nat × Nat
  mbClen : Int → Int → Int

/-- `wordchars_count` from `searchutils.c`: length in bytes of the leading
word-constituent characters of `[buf, endp)` (all of them if `countall`,
else at most one), together with the positions explicitly read.  The second
`Nat` argument is the running count `n`; fuel models the `while` loop. -/
def wordchars_count (t : WordTables) (bufF : Int → Nat) (buf endp : Int)
    (countall : Bool) : Nat → Nat → Nat × List Int
  | 0, n => (n, [])
  | fuel+1, n =>
    if (buf + (n : Int)) < endp then
      let b := bufF (buf + (n : Int)) % 256
      if t.sbwordchar b then
        if countall then
          let r := wordchars_count t bufF buf endp countall fuel (n + 1)
          (r.1, (buf + (n : Int)) :: r.2)
        else (n + 1, [buf + (n : Int)])
      else if t.sbclen b ≠ -2 then (n, [buf + (n : Int)])
      else
        let wcb := t.mbtowc (buf + (n : Int)) (endp - buf - (n : Int))
        if ¬ t.wordcharWc wcb.1 then (n, [buf + (n : Int)])
        else
          let n2 := n + wcb.2 + (if wcb.2 = 0 then 1 else 0)
          if countall then
            let r := wordchars_count t bufF buf endp countall fuel n2
            (r.1, (buf + (n : Int)) :: r.2)
          else (n2, [buf + (n : Int)])
    else (n, [])

/-- `wordchar_next`: byte length of the word constituent at the start of
`[buf, endp)`, or zero. -/
def wordchar_next (t : WordTables) (bufF : Int → Nat) (buf endp : Int) :
    Nat × List Int :=
  wordchars_count t bufF buf endp false ((endp - buf).toNat + 1) 0

/-- `wordchar_prev` from `searchutils.c`: nonzero iff the character whose
encoding contains the byte before `cur` is a word constituent.  Returns the
value and the positions explicitly read. -/
def wordchar_prev (t : WordTables) (bufF : Int → Nat) (buf cur endp : Int) :
    Nat × List Int :=
  if buf = cur then (0, [])
  else
    let cur1 := cur - 1
    let b := bufF cur1 % 256
    if ¬ t.multibyte ∨ (t.usingUtf8 ∧ b < 128) then
      (if t.sbwordchar b then 1 else 0, [cur1])
    else
      let g := mb_goback t.usingUtf8 t.mbClen bufF buf cur1 endp
      let cur2 := cur1 - g.dist
      let r := wordchar_next t bufF cur2 endp
      (r.1, cur1 :: r.2)

/-! ## Concrete instances for scenario runs, witnesses and counterexamples -/

/-- The `localeinfo.sbclen` table of a UTF-8 locale: ASCII bytes are complete
single-byte characters (`1`), bytes that can never start a valid UTF-8
character (continuations, overlong leads `0xC0`/`0xC1`, and `0xF5`–`0xFF`)
are `-1`, and possible multibyte leads are `-2` (consult the decoder). -/
def utf8sbclen : Nat → Int := fun b =>
  if b % 256 < 128 then 1
  else if b % 256 < 194 then -1
  else if b % 256 < 245 then -2
  else -1

/-- Leftmost occurrence of `pat` in the list at index at least `i` (the list
is the suffix from `i` of the searched region). -/
def litScanAux (pat : List Nat) : List Nat → Nat → Option Nat
  | [], i => if pat = [] then some i else none
  | b :: rest, i =>
    if pat.isPrefixOf (b :: rest) then some i
    else litScanAux pat rest (i + 1)

/-- A concrete engine matching the fixed byte string `pat` (leftmost match at
or after the search offset), satisfying the backend contract; it never
reports encoding barriers. -/
def litEng (pat : List Nat) : Engine := fun region off _ _ =>
  match litScanAux pat (region.drop off) off with
  | some s => .found s (s + pat.length)
  | none => .nomatch

/-- The literal engine for the pattern `cat`. -/
def litCat : Engine := litEng [99, 97, 116]

/-- The literal engine for the pattern `abc`. -/
def litAbc : Engine := litEng [97, 98, 99]

/-- Index of the first `0xC3` byte of a region, if any. -/
def firstBadIdx : List Nat → Option Nat
  | [] => none
  | b :: r => if b = 195 then some 0 else (firstBadIdx r).map (· + 1)

/-- A concrete engine that reports an encoding barrier at the first truncated
lead byte `0xC3` of its region (modelling a UTF-8-validating engine on data
where `0xC3` is never followed by a continuation byte), and finds no match in
clean regions.  The bounded re-match (`PCRE2_NO_UTF_CHECK | PCRE2_NOTEOL`)
over the valid prefix returns no match. -/
def engBar : Engine := fun region _ _ noteol =>
  if noteol then .nomatch
  else
    match firstBadIdx region with
    | some i => .barrier i
    | none => .nomatch

/-- The buffer `['a', 0xC3, 'c', '\n']`, surrounded by newline sentinels. -/
def bufBar : Int → Nat := fun i =>
  if i = 0 then 97 else if i = 1 then 195 else if i = 2 then 99 else 10

/-- The buffer `[0xFF, 'c', 'a', 't', '\n']`, surrounded by newline
sentinels. -/
def bufC7 : Int → Nat := fun i =>
  if i = 0 then 255 else if i = 1 then 99 else if i = 2 then 97
  else if i = 3 then 116 else 10

/-- The buffer `"xxabcxx\n"`, surrounded by newline sentinels. -/
def bufAbc : Int → Nat := fun i =>
  if i = 2 then 97 else if i = 3 then 98 else if i = 4 then 99
  else if i = 0 ∨ i = 1 ∨ i = 5 ∨ i = 6 then 120 else 10

/-- The buffer `"a\n"`, surrounded by newline sentinels. -/
def bufA : Int → Nat := fun i => if i = 0 then 97 else 10

/-- An all-newline buffer. -/
def bufNl : Int → Nat := fun _ => 10

/-- The two-byte buffer holding the UTF-8 encoding of `é` (`0xC3 0xA9`)
followed by a newline sentinel at position 2. -/
def bufE : Int → Nat := fun i => if i = 0 then 195 else if i = 1 then 169 else 10

/-- A build configuration with PCRE2's stock default depth limit
(10,000,000) and 64-bit `idx_t` / `size_t`. -/
def cfgStd : JitConfig := ⟨2 ^ 62 - 1, 2 ^ 64 - 1, 10000000, 4294967295⟩

/-- An abstract match whose backtracking depth requirement (40,000,000)
exceeds twice the default depth limit: `pcre2_match` reports `DEPTHLIMIT`
whenever the current ceiling (the default when the match context is unset)
is below the requirement. -/
def deepEng : Nat → Option Nat → MatchCode := fun _ dl =>
  if dl.getD cfgStd.depthDefault < 40000000 then .depthlimit else .other 1

/-- A small build configuration for closed witness computations. -/
def cfgSmall : JitConfig := ⟨100, 9000, 5, 100⟩

/-- An engine that needs a 64-byte JIT stack: reports `JIT_STACKLIMIT` below
that, then succeeds. -/
def stackEng : Nat → Option Nat → MatchCode := fun sz _ =>
  if sz < 64 then .stacklimit else .other 1

/-- An engine that succeeds immediately. -/
def okEng : Nat → Option Nat → MatchCode := fun _ _ => .other 0

/-! ## Theorems -/

/-- If the pattern contains an embedded newline, `rawmemchr` finds it before
the sentinel appended after the pattern's `size` bytes. -/
lemma rawmemchrIdx_lt_of_mem {pat : List Nat} (h : 10 ∈ pat) :
    rawmemchrIdx 10 (pat ++ [10]) < pat.length := by
  induction pat with
  | nil => cases h
  | cons a l ih =>
    by_cases ha : a = 10
    · simp [rawmemchrIdx, ha]
    · rcases List.mem_cons.mp h with h1 | h2
      · exact absurd h1.symm ha
      · simp only [List.cons_append, rawmemchrIdx, if_neg ha, List.length_cons]
        exact Nat.succ_lt_succ (ih h2)

/-- C10: `wordchar_prev (buf, cur, end)` returns 0 (not a word constituent)
whenever `cur` equals `buf`, and performs no memory read at all in that case:
at the very start of the buffer there is no preceding character. -/
theorem wordchar_prev_at_buffer_start (t : WordTables) (bufF : Int → Nat)
    (cur endp : Int) :
    wordchar_prev t bufF cur cur endp = (0, []) := by
  simp [wordchar_prev]

/-- C8: `Pcompile` rejects, with a fatal compile-time error, every pattern
whose `size` bytes contain an embedded line-terminator byte; no multi-line
pattern is ever accepted.  (When the locale checks pass, the error is
precisely the single-pattern rejection, issued before the engine compile and
before the empty-match searches.) -/
theorem Pcompile_rejects_embedded_newline (u m u8 ml mw : Bool)
    (cOk : List Nat → Bool) (eng : Engine) (pat : List Nat) (h : 10 ∈ pat) :
    (∀ pc, Pcompile u m u8 ml mw cOk eng pat ≠ .ok pc) ∧
    (m = false → Pcompile u m u8 ml mw cOk eng pat = .error .multilinePattern) := by
  have hidx : rawmemchrIdx 10 (pat ++ [10]) ≠ pat.length :=
    Nat.ne_of_lt (rawmemchrIdx_lt_of_mem h)
  constructor
  · intro pc
    unfold Pcompile
    split_ifs <;> simp_all
  · intro hm
    subst hm
    unfold Pcompile
    simp [hidx]

/-- Closed instance of `Pcompile_rejects_embedded_newline` on the pattern
`['a', '\n', 'b']` in a unibyte locale. -/
theorem Pcompile_rejects_embedded_newline_witness :
    (10 ∈ [97, 10, 98]) ∧
    Pcompile true false true false false (fun _ => true) litCat [97, 10, 98]
      = .error .multilinePattern :=
  ⟨by decide,
   (Pcompile_rejects_embedded_newline true false true false false
      (fun _ => true) litCat [97, 10, 98] (by decide)).2 rfl⟩

/-- C7: in a UTF-8 locale, for pattern `cat` and buffer
`[0xFF, 'c', 'a', 't', '\n']`, `Pexecute` in per-match mode (resume pointer
at buffer start) returns a match at offset 1 of length 3: the invalid byte
`0xFF` is treated as unmatchable data, skipped, and the search continues
after it within the same line. -/
theorem Pexecute_skips_invalid_byte_scenario :
    (Pexecute false utf8sbclen 10 litCat (pcEmpty litCat) bufC7 5 (some 0)).res
      = .found 1 3 ⟨1, 0, 3, 0, 4⟩ := by decide

/-- One-step unfolding of `jit_exec` when the engine reports
`JIT_STACKLIMIT`. -/
lemma jit_exec_succ_stack (cfg : JitConfig) (jeng : Nat → Option Nat → MatchCode)
    (fuel : Nat) (s : JitState)
    (h : jeng s.jitStackSize s.depthLimit = .stacklimit) :
    jit_exec cfg jeng (fuel + 1) s =
      if s.jitStackSize ≤ jitstackMax cfg / 2 then
        jit_exec cfg jeng fuel ⟨s.jitStackSize * 2, s.depthLimit⟩
      else some (.stacklimit, s) := by
  conv_lhs => rw [jit_exec]
  rw [h]

/-- One-step unfolding of `jit_exec` when the engine reports
`DEPTHLIMIT`. -/
lemma jit_exec_succ_depth (cfg : JitConfig) (jeng : Nat → Option Nat → MatchCode)
    (fuel : Nat) (s : JitState)
    (h : jeng s.jitStackSize s.depthLimit = .depthlimit) :
    jit_exec cfg jeng (fuel + 1) s =
      if cfg.uintMax < 2 * cfg.depthDefault then some (.depthlimit, s)
      else jit_exec cfg jeng fuel ⟨s.jitStackSize, some (2 * cfg.depthDefault)⟩ := by
  conv_lhs => rw [jit_exec]
  rw [h]

/-- One-step unfolding of `jit_exec` on any other return code. -/
lemma jit_exec_succ_other (cfg : JitConfig) (jeng : Nat → Option Nat → MatchCode)
    (fuel : Nat) (s : JitState) (e : Int)
    (h : jeng s.jitStackSize s.depthLimit = .other e) :
    jit_exec cfg jeng (fuel + 1) s = some (.other e, s) := by
  conv_lhs => rw [jit_exec]
  rw [h]

/-- `jit_exec` never decreases the stored JIT stack size. -/
lemma jit_exec_stack_mono (cfg : JitConfig) (jeng : Nat → Option Nat → MatchCode) :
    ∀ fuel s r s2, jit_exec cfg jeng fuel s = some (r, s2) →
      s.jitStackSize ≤ s2.jitStackSize := by
  intro fuel
  induction fuel with
  | zero => intro s r s2 h; simp [jit_exec] at h
  | succ n ih =>
    intro s r s2 h
    cases he : jeng s.jitStackSize s.depthLimit with
    | stacklimit =>
      rw [jit_exec_succ_stack cfg jeng n s he] at h
      split_ifs at h with hg
      · have h2 := ih _ _ _ h
        simp only at h2
        omega
      · injection h with h1
        injection h1 with _ h2
        subst h2
        exact le_refl _
    | depthlimit =>
      rw [jit_exec_succ_depth cfg jeng n s he] at h
      split_ifs at h with hov
      · injection h with h1
        injection h1 with _ h2
        subst h2
        exact le_refl _
      · have h2 := ih _ _ _ h
        simpa only using h2
    | other e =>
      rw [jit_exec_succ_other cfg jeng n s e he] at h
      injection h with h1
      injection h1 with _ h2
      subst h2
      exact le_refl _

/-- Every change `jit_exec` makes to the JIT stack size is a sequence of
doublings, each taken only under the guard
`jit_stack_size ≤ jitstack_max / 2`. -/
lemma jit_exec_stack_shape (cfg : JitConfig) (jeng : Nat → Option Nat → MatchCode) :
    ∀ fuel s r s2, jit_exec cfg jeng fuel s = some (r, s2) →
      ∃ k, s2.jitStackSize = s.jitStackSize * 2 ^ k ∧
        (0 < k → s.jitStackSize ≤ jitstackMax cfg / 2 ∧
                 s2.jitStackSize ≤ 2 * (jitstackMax cfg / 2)) := by
  intro fuel
  induction fuel with
  | zero => intro s r s2 h; simp [jit_exec] at h
  | succ n ih =>
    intro s r s2 h
    cases he : jeng s.jitStackSize s.depthLimit with
    | stacklimit =>
      rw [jit_exec_succ_stack cfg jeng n s he] at h
      split_ifs at h with hg
      · obtain ⟨k, hk, hb⟩ := ih _ _ _ h
        simp only at hk hb
        refine ⟨k + 1, by rw [hk]; ring, fun _ => ⟨hg, ?_⟩⟩
        rcases Nat.eq_zero_or_pos k with h0 | h0
        · subst h0
          simp only [pow_zero, mul_one] at hk
          omega
        · exact (hb h0).2
      · injection h with h1
        injection h1 with _ h2
        subst h2
        exact ⟨0, by simp, by omega⟩
    | depthlimit =>
      rw [jit_exec_succ_depth cfg jeng n s he] at h
      split_ifs at h with hov
      · injection h with h1
        injection h1 with _ h2
        subst h2
        exact ⟨0, by simp, by omega⟩
      · obtain ⟨k, hk, hb⟩ := ih _ _ _ h
        simp only at hk hb
        exact ⟨k, hk, hb⟩
    | other e =>
      rw [jit_exec_succ_other cfg jeng n s e he] at h
      injection h with h1
      injection h1 with _ h2
      subst h2
      exact ⟨0, by simp, by omega⟩

/-- C4: scratch (JIT stack) escalation is monotonic and sticky.  A `jit_exec`
call doubles `pc->jit_stack_size` only from sizes at most half the safety
ceiling (so the doublings never take it past the ceiling), never decreases
it, and the enlarged size is part of the returned state; a second search
continuing from that stored state (with any engine behaviour) again finishes
with at least the grown size. -/
theorem jit_stack_monotone_sticky (cfg : JitConfig)
    (jeng jeng2 : Nat → Option Nat → MatchCode) (fuel fuel2 : Nat)
    (s : JitState) (r r2 : MatchCode) (s2 s3 : JitState)
    (h : jit_exec cfg jeng fuel s = some (r, s2))
    (h2 : jit_exec cfg jeng2 fuel2 s2 = some (r2, s3)) :
    s.jitStackSize ≤ s2.jitStackSize ∧
    (∃ k, s2.jitStackSize = s.jitStackSize * 2 ^ k ∧
      (0 < k → s.jitStackSize ≤ jitstackMax cfg / 2 ∧
               s2.jitStackSize ≤ 2 * (jitstackMax cfg / 2))) ∧
    s.jitStackSize ≤ s3.jitStackSize :=
  ⟨jit_exec_stack_mono cfg jeng fuel s r s2 h,
   jit_exec_stack_shape cfg jeng fuel s r s2 h,
   le_trans (jit_exec_stack_mono cfg jeng fuel s r s2 h)
     (jit_exec_stack_mono cfg jeng2 fuel2 s2 r2 s3 h2)⟩

/-- Closed instance of `jit_stack_monotone_sticky`: an engine needing a
64-byte JIT stack doubles the initial 32 bytes once; a later search starts
from (and keeps) the grown size. -/
theorem jit_stack_monotone_sticky_witness :
    jit_exec cfgSmall stackEng 5 ⟨32, none⟩ = some (.other 1, ⟨64, none⟩) ∧
    jit_exec cfgSmall okEng 3 ⟨64, none⟩ = some (.other 0, ⟨64, none⟩) ∧
    (32 : Nat) ≤ 64 :=
  ⟨by decide, by decide,
   (jit_stack_monotone_sticky cfgSmall stackEng okEng 5 3 ⟨32, none⟩
      (.other 1) (.other 0) ⟨64, none⟩ ⟨64, none⟩ (by decide) (by decide)).1⟩

/-- From the state reached after the first depth-limit retry, the retry loop
of `jit_exec` makes no further progress against an engine whose depth
requirement exceeds twice the default limit: the `DEPTHLIMIT` branch reads
the build-time default again and re-installs the same doubled ceiling, so
the state repeats forever. -/
lemma deepEng_fixed_point :
    ∀ n, jit_exec cfgStd deepEng n ⟨32768, some 20000000⟩ = none := by
  intro n
  induction n with
  | zero => rfl
  | succ k ih =>
    rw [jit_exec_succ_depth cfgStd deepEng k _ (by decide), if_neg (by decide),
        show (2 * cfgStd.depthDefault) = 20000000 from by decide]
    exact ih

/-- C3 counterexample: the adaptive invoker's retry loop does not always
halt.  Against a match whose backtracking depth requirement exceeds twice
the build-time default depth limit (`deepEng`, requirement 40,000,000 versus
default 10,000,000), `jit_exec` diverges: the `DEPTHLIMIT` branch does not
double the current ceiling but re-reads the default and installs the same
`2 × default` every iteration, while doubling the default never overflows
`uint32_t`, so the error is neither resolved nor propagated. -/
theorem jit_exec_depthlimit_diverges :
    JitDiverges cfgStd deepEng ⟨32768, none⟩ := by
  intro fuel
  cases fuel with
  | zero => rfl
  | succ k =>
    rw [jit_exec_succ_depth cfgStd deepEng k _ (by decide), if_neg (by decide),
        show (2 * cfgStd.depthDefault) = 20000000 from by decide]
    exact deepEng_fixed_point k

/-- Once the depth ceiling holds the doubled default, an engine that no
longer reports `DEPTHLIMIT` at that ceiling lets `jit_exec` halt within the
stated stack-doubling budget. -/
lemma jit_exec_halts_at_doubled_depth (cfg : JitConfig)
    (jeng : Nat → Option Nat → MatchCode)
    (hd : ∀ sz, jeng sz (some (2 * cfg.depthDefault)) ≠ .depthlimit) :
    ∀ fuel s, s.depthLimit = some (2 * cfg.depthDefault) → 1 ≤ s.jitStackSize →
      jitstackMax cfg / 2 < s.jitStackSize * 2 ^ fuel →
      jit_exec cfg jeng (fuel + 1) s ≠ none := by
  intro fuel
  induction fuel with
  | zero =>
    intro s hdl hpos hbig
    simp only [pow_zero, mul_one] at hbig
    cases he : jeng s.jitStackSize s.depthLimit with
    | stacklimit =>
      rw [jit_exec_succ_stack cfg jeng 0 s he, if_neg (by omega)]
      simp
    | depthlimit => rw [hdl] at he; exact absurd he (hd _)
    | other e => rw [jit_exec_succ_other cfg jeng 0 s e he]; simp
  | succ k ih =>
    intro s hdl hpos hbig
    cases he : jeng s.jitStackSize s.depthLimit with
    | stacklimit =>
      rw [jit_exec_succ_stack cfg jeng (k + 1) s he]
      split_ifs with hg
      · have hpow : s.jitStackSize * 2 * 2 ^ k = s.jitStackSize * 2 ^ (k + 1) := by
          ring
        exact ih ⟨s.jitStackSize * 2, s.depthLimit⟩ hdl
          (show 1 ≤ s.jitStackSize * 2 by omega)
          (show jitstackMax cfg / 2 < s.jitStackSize * 2 * 2 ^ k by omega)
      · simp
    | depthlimit => rw [hdl] at he; exact absurd he (hd _)
    | other e => rw [jit_exec_succ_other cfg jeng (k + 1) s e he]; simp

/-- Termination of `jit_exec` for engines that are satisfied by the doubled
default depth ceiling, with an explicit fuel budget: one possible depth
retry plus at most `fuel` stack doublings. -/
lemma jit_exec_halts_aux (cfg : JitConfig)
    (jeng : Nat → Option Nat → MatchCode)
    (hd : ∀ sz, jeng sz (some (2 * cfg.depthDefault)) ≠ .depthlimit) :
    ∀ fuel s, 1 ≤ s.jitStackSize →
      jitstackMax cfg / 2 < s.jitStackSize * 2 ^ fuel →
      jit_exec cfg jeng (fuel + 2) s ≠ none := by
  intro fuel
  induction fuel with
  | zero =>
    intro s hpos hbig
    simp only [pow_zero, mul_one] at hbig
    cases he : jeng s.jitStackSize s.depthLimit with
    | stacklimit =>
      rw [show (0 + 2 : Nat) = 1 + 1 from rfl,
          jit_exec_succ_stack cfg jeng 1 s he, if_neg (by omega)]
      simp
    | depthlimit =>
      rw [show (0 + 2 : Nat) = 1 + 1 from rfl, jit_exec_succ_depth cfg jeng 1 s he]
      split_ifs with hov
      · simp
      · exact jit_exec_halts_at_doubled_depth cfg jeng hd 0
          ⟨s.jitStackSize, some (2 * cfg.depthDefault)⟩ rfl hpos
          (by simpa using hbig)
    | other e =>
      rw [show (0 + 2 : Nat) = 1 + 1 from rfl, jit_exec_succ_other cfg jeng 1 s e he]
      simp
  | succ k ih =>
    intro s hpos hbig
    cases he : jeng s.jitStackSize s.depthLimit with
    | stacklimit =>
      rw [show (k + 1 + 2 : Nat) = (k + 2) + 1 from rfl,
          jit_exec_succ_stack cfg jeng (k + 2) s he]
      split_ifs with hg
      · have hpow : s.jitStackSize * 2 * 2 ^ k = s.jitStackSize * 2 ^ (k + 1) := by
          ring
        exact ih ⟨s.jitStackSize * 2, s.depthLimit⟩
          (show 1 ≤ s.jitStackSize * 2 by omega)
          (show jitstackMax cfg / 2 < s.jitStackSize * 2 * 2 ^ k by omega)
      · simp
    | depthlimit =>
      rw [show (k + 1 + 2 : Nat) = (k + 2) + 1 from rfl,
          jit_exec_succ_depth cfg jeng (k + 2) s he]
      split_ifs with hov
      · simp
      · exact jit_exec_halts_at_doubled_depth cfg jeng hd (k + 1)
          ⟨s.jitStackSize, some (2 * cfg.depthDefault)⟩ rfl hpos hbig
    | other e =>
      rw [show (k + 1 + 2 : Nat) = (k + 2) + 1 from rfl,
          jit_exec_succ_other cfg jeng (k + 2) s e he]
      simp

/-- C3 amended: each `JIT_STACKLIMIT` retry strictly doubles the JIT stack
size under its guard, so at most logarithmically many occur; the
`DEPTHLIMIT` branch, however, installs twice the build-time default (not
twice the current ceiling), so the retry loop halts provided the engine does
not report `DEPTHLIMIT` when the ceiling is already `2 × default` (it
propagates the error instead when doubling the default overflows the
`uint32_t` range).  Fuel `k + 2` suffices whenever `2^k` doublings take the
stack past `jitstack_max / 2`. -/
theorem jit_exec_halts_amended (cfg : JitConfig)
    (jeng : Nat → Option Nat → MatchCode) (s : JitState) (k : Nat)
    (hd : ∀ sz, jeng sz (some (2 * cfg.depthDefault)) ≠ .depthlimit)
    (hpos : 1 ≤ s.jitStackSize)
    (hk : jitstackMax cfg / 2 < s.jitStackSize * 2 ^ k) :
    jit_exec cfg jeng (k + 2) s ≠ none :=
  jit_exec_halts_aux cfg jeng hd k s hpos hk

/-- Closed instance of `jit_exec_halts_amended` on a small configuration and
an immediately successful engine. -/
theorem jit_exec_halts_amended_witness :
    jitstackMax cfgSmall / 2 < 1 * 2 ^ 6 ∧
    jit_exec cfgSmall okEng 8 ⟨1, none⟩ ≠ none :=
  ⟨by decide,
   jit_exec_halts_amended cfgSmall okEng ⟨1, none⟩ 6
     (fun sz => by simp [okEng]) (by decide) (by decide)⟩

/-- C6: whenever the scan position equals `line_end` (the remaining subject
on the line is empty), consulting the precomputed table `empty_match[bol]`
yields exactly the outcome of invoking the engine on an empty subject with
the corresponding begin-of-line flag (`PCRE2_NOTBOL` iff not `bol`) — the
table entries being, by `Pcompile`'s construction (`pcEmpty`), precisely the
results of those two empty-subject invocations performed once at compile
time — with the reported span pinned to `(search_offset, search_offset)`. -/
theorem empty_match_table_refines_engine (miu : Bool) (loc : Nat → Int)
    (buf : Int → Nat) (eng : Engine) (lineEnd subject : Nat) (bol : Bool)
    (fuel : Nat) (hstop : loc (buf (lineEnd : Int)) ≠ -1) :
    (innerLoop miu loc buf eng (pcEmpty eng) lineEnd (fuel + 1)
        lineEnd subject bol).1
      = .brk (withSub (eng [] 0 (!bol) false)
               (lineEnd - subject) (lineEnd - subject)) subject := by
  have h1 : lineEnd + 1 - lineEnd = 1 := by omega
  simp only [innerLoop, h1, skipBadR, if_neg hstop]
  simp [pcEmpty]

/-- Closed instance of `empty_match_table_refines_engine` on an empty line at
the buffer start. -/
theorem empty_match_table_refines_engine_witness :
    (utf8sbclen (bufNl (0 : Int)) ≠ -1) ∧
    (innerLoop false utf8sbclen bufNl litCat (pcEmpty litCat) 0 1 0 0 true).1
      = .brk (withSub (litCat [] 0 false false) 0 0) 0 :=
  ⟨by decide,
   empty_match_table_refines_engine false utf8sbclen bufNl litCat 0 0 true 0
     (by decide)⟩

/-- C5: when `Pexecute` finds a match, the result depends on the reporting
mode: with a resume pointer (`start_ptr` non-null) it returns the exact
matched span (`beg = subject + sub[0]`, `*match_size = sub[1] - sub[0]`);
with `start_ptr` null it returns the entire containing line
(`beg = line_start`, `*match_size = line_end + 1 - line_start`), regardless
of where inside the line the match occurred. -/
theorem Pexecute_reporting_modes (miu : Bool) (loc : Nat → Int) (eol : Nat)
    (eng : Engine) (emptyM : Bool → EngOut) (buf : Int → Nat) (size : Nat)
    (startPtr : Option Nat) (off msz : Nat) (raw : RawMatch)
    (h : (Pexecute miu loc eol eng emptyM buf size startPtr).res
           = .found off msz raw) :
    (startPtr.isSome = true →
       off = raw.subject + raw.sub0 ∧ msz = raw.sub1 - raw.sub0) ∧
    (startPtr = none →
       off = raw.lineStart ∧ msz = raw.lineEnd + 1 - raw.lineStart) := by
  rcases ho : outerLoop miu loc buf eng emptyM eol size (size + 1)
      (startPtr.getD 0) 0 0 (buf ((startPtr.getD 0 : Int) - 1) == eol)
    with ⟨r, st⟩
  simp only [Pexecute, ho] at h
  cases r with
  | foundRaw raw2 =>
    simp only [PexecRes.found.injEq] at h
    obtain ⟨hbeg, hmsz, hraw⟩ := h
    subst hraw
    cases startPtr with
    | none =>
      simp only [Option.isSome_none] at hbeg hmsz ⊢
      simp only [Bool.false_eq_true, if_false] at hbeg hmsz
      exact ⟨fun hc => by simp at hc, fun _ => ⟨hbeg.symm, hmsz.symm⟩⟩
    | some s0 =>
      simp only [Option.isSome_some, if_true] at hbeg hmsz
      refine ⟨fun _ => ⟨hbeg.symm, ?_⟩, fun hc => by simp at hc⟩
      omega
  | notFound => simp at h
  | engineError e => simp at h
  | adminFuelOut => simp at h
  | adminNoEol => simp at h

/-- Closed instance of `Pexecute_reporting_modes`: pattern `abc` on the
buffer `"xxabcxx\n"` in per-match mode yields the exact span
`(offset 2, length 3)`. -/
theorem Pexecute_reporting_modes_witness :
    (Pexecute false utf8sbclen 10 litAbc (pcEmpty litAbc) bufAbc 8
        (some 0)).res = .found 2 3 ⟨0, 2, 5, 0, 7⟩ ∧
    ((2 : Nat) = 0 + 2 ∧ (3 : Nat) = 5 - 2) :=
  ⟨by decide,
   (Pexecute_reporting_modes false utf8sbclen 10 litAbc (pcEmpty litAbc)
      bufAbc 8 (some 0) 2 3 ⟨0, 2, 5, 0, 7⟩ (by decide)).1 rfl⟩

/-- C2 counterexample: with no resume pointer supplied, `Pexecute` computes
the initial begin-of-line flag as `bol = p[-1] == eolbyte` with `p = buf`,
reading the byte at `buf - 1` — one byte outside `[buffer, buffer + size)`.
Concretely, on the buffer `"a\n"` the position `-1` is among the positions
read. -/
theorem Pexecute_reads_before_buffer :
    ((-1 : Int) ∈ (Pexecute false utf8sbclen 10 litAbc (pcEmpty litAbc)
        bufA 2 none).reads) ∧ ¬ (0 ≤ (-1 : Int)) := by
  constructor
  · decide
  · decide

/-- C1 counterexample: the number of engine invocations can exceed (number
of lines) + (number of encoding barriers).  On the one-line buffer
`['a', 0xC3, 'c', '\n']` with an engine reporting one encoding barrier at
the `0xC3` byte, `Pexecute` makes 3 engine invocations: the reporting call,
the bounded re-match over the valid prefix, and the call after the barrier —
while lines + barriers = 1 + 1 = 2. -/
theorem Pexecute_invocation_bound_exceeded :
    (Pexecute false utf8sbclen 10 engBar (pcEmpty engBar) bufBar 4 none).calls
        = 3 ∧
    (Pexecute false utf8sbclen 10 engBar (pcEmpty engBar) bufBar 4
        none).barriers = 1 ∧
    countEol bufBar 10 0 4 = 1 ∧
    ¬ ((3 : Nat) ≤ 1 + 1) := by
  refine ⟨by decide, by decide, by decide, by decide⟩

@[simp] lemma Stats_add_calls (a b : Stats) :
    (a.add b).calls = a.calls + b.calls := rfl

@[simp] lemma Stats_add_barriers (a b : Stats) :
    (a.add b).barriers = a.barriers + b.barriers := rfl

@[simp] lemma Stats_add_reads (a b : Stats) :
    (a.add b).reads = a.reads ++ b.reads := rfl

@[simp] lemma regionOf_length (buf : Int → Nat) (s n : Nat) :
    (regionOf buf s n).length = n := by
  simp [regionOf]

lemma regionReads_mem {s n r : Nat} (h : r ∈ regionReads s n) :
    s ≤ r ∧ r < s + n := by
  simp only [regionReads, List.mem_map, List.mem_range] at h
  obtain ⟨i, hi, rfl⟩ := h
  omega

/-- The skip loop never moves backwards. -/
lemma skipBadR_ge (loc : Nat → Int) (buf : Int → Nat) :
    ∀ fuel p, p ≤ (skipBadR loc buf fuel p).1 := by
  intro fuel
  induction fuel with
  | zero => intro p; exact le_refl p
  | succ n ih =>
    intro p
    simp only [skipBadR]
    split_ifs with hc
    · exact le_trans (Nat.le_succ p) (ih (p + 1))
    · exact le_refl p

/-- The skip loop stops no later than the first byte not classified `-1`. -/
lemma skipBadR_le (loc : Nat → Int) (buf : Int → Nat) :
    ∀ (fuel p q : Nat), p ≤ q → q < p + fuel → loc (buf (q : Int)) ≠ -1 →
      (skipBadR loc buf fuel p).1 ≤ q := by
  intro fuel
  induction fuel with
  | zero => intro p q h1 h2 _; omega
  | succ n ih =>
    intro p q h1 h2 h3
    simp only [skipBadR]
    split_ifs with hc
    · have hne : p ≠ q := by
        intro hpq
        exact h3 (hpq ▸ hc)
      exact ih (p + 1) q (by omega) (by omega) h3
    · exact h1

/-- The skip loop reads only positions between its start and its stop. -/
lemma skipBadR_reads (loc : Nat → Int) (buf : Int → Nat) :
    ∀ fuel p r, r ∈ (skipBadR loc buf fuel p).2 →
      p ≤ r ∧ r ≤ (skipBadR loc buf fuel p).1 := by
  intro fuel
  induction fuel with
  | zero => intro p r h; simp [skipBadR] at h
  | succ n ih =>
    intro p r h
    simp only [skipBadR] at h ⊢
    split_ifs at h ⊢ with hc
    · rcases List.mem_cons.mp h with rfl | h2
      · exact ⟨le_refl r, le_trans (Nat.le_succ r) (skipBadR_ge loc buf n (r + 1))⟩
      · have := ih (p + 1) r h2
        omega
    · rcases List.mem_cons.mp h with rfl | h2
      · exact ⟨le_refl r, le_refl r⟩
      · simp at h2

/-- `rawmemchr` finds the first `eol` byte, within the fuel bound given by an
occurrence of `eol`; its reads stay between the start and the stop. -/
lemma findEolR_spec (buf : Int → Nat) (eol : Nat) :
    ∀ (fuel p q : Nat), p ≤ q → q < p + fuel → buf (q : Int) = eol →
      ∃ le, (findEolR buf eol fuel p).1 = some le ∧ p ≤ le ∧ le ≤ q ∧
        buf (le : Int) = eol ∧
        (∀ i, p ≤ i → i < le → buf (i : Int) ≠ eol) ∧
        (∀ r ∈ (findEolR buf eol fuel p).2, p ≤ r ∧ r ≤ le) := by
  intro fuel
  induction fuel with
  | zero => intro p q h1 h2 _; omega
  | succ n ih =>
    intro p q h1 h2 h3
    by_cases hb : buf (p : Int) = eol
    · refine ⟨p, ?_, le_refl p, h1, hb, fun i hi1 hi2 => by omega, ?_⟩
      · simp [findEolR, hb]
      · intro r hr
        simp [findEolR, hb] at hr
        omega
    · have hpq : p ≠ q := fun hpq => hb (hpq ▸ h3)
      obtain ⟨le, hle, h4, h5, h6, h7, h8⟩ := ih (p + 1) q (by omega) (by omega) h3
      refine ⟨le, ?_, by omega, h5, h6, ?_, ?_⟩
      · simp [findEolR, hb, hle]
      · intro i hi1 hi2
        rcases Nat.eq_or_lt_of_le hi1 with rfl | hlt
        · exact hb
        · exact h7 i hlt hi2
      · intro r hr
        simp only [findEolR, if_neg hb] at hr
        rcases List.mem_cons.mp hr with rfl | h9
        · exact ⟨le_refl r, by omega⟩
        · have := h8 r h9
          omega

/-- Splitting the `eol` count at the first occurrence. -/
lemma countEol_split (buf : Int → Nat) (eol : Nat) :
    ∀ (n p le : Nat), p ≤ le → le < p + n → buf (le : Int) = eol →
      (∀ i, p ≤ i → i < le → buf (i : Int) ≠ eol) →
      countEol buf eol p n = 1 + countEol buf eol (le + 1) (p + n - (le + 1)) := by
  intro n
  induction n with
  | zero => intro p le h1 h2 _ _; omega
  | succ n ih =>
    intro p le h1 h2 h3 h4
    rcases Nat.eq_or_lt_of_le h1 with rfl | hlt
    · simp only [countEol, if_pos h3]
      have he : p + (n + 1) - (p + 1) = n := by omega
      rw [he]
    · have hb : buf (p : Int) ≠ eol := h4 p (le_refl p) hlt
      simp only [countEol, if_neg hb]
      have hr := ih (p + 1) le (by omega) (by omega) h3
        (fun i hi1 hi2 => h4 i (by omega) hi2)
      have he : p + 1 + n - (le + 1) = p + (n + 1) - (le + 1) := by omega
      rw [he] at hr
      omega

/-- Main invariant of the inner (encoding-barrier) loop: under the engine
sanity condition (a reported barrier lies strictly inside the searched
region) and the locale fact that the byte at `line_end` is not classified as
an impossible lead byte, the loop always breaks within fuel
`lineEnd + 1 - subject` (because `subject` strictly advances past at least
one byte on every non-breaking iteration), finishes with
`subject ≤ subj2 ≤ lineEnd`, performs at most `1 + 2 × (barrier reports)`
engine invocations on the line, and reads only positions up to
`lineEnd`. -/
lemma innerLoop_spec (miu : Bool) (loc : Nat → Int) (buf : Int → Nat)
    (eng : Engine) (emptyM : Bool → EngOut) (lineEnd : Nat)
    (hstop : loc (buf (lineEnd : Int)) ≠ -1)
    (heng : ∀ reg o nb ne vb, eng reg o nb ne = EngOut.barrier vb →
      vb < reg.length) :
    ∀ (fuel p subject : Nat) (bol : Bool) (res : InnerRes) (st : Stats),
      innerLoop miu loc buf eng emptyM lineEnd fuel p subject bol = (res, st) →
      subject ≤ p → p ≤ lineEnd → lineEnd + 1 ≤ subject + fuel →
      ∃ e subj2, res = .brk e subj2 ∧
        subject ≤ subj2 ∧ subj2 ≤ lineEnd ∧
        st.calls ≤ 1 + 2 * st.barriers ∧
        ∀ r ∈ st.reads, r ≤ lineEnd := by
  intro fuel
  induction fuel with
  | zero => intro p subject bol res st h h1 h2 h3; omega
  | succ n ih =>
    intro p subject bol res st hres h1 h2 h3
    simp only [innerLoop] at hres
    set q := (skipBadR loc buf (lineEnd + 1 - p) p).1 with hq
    set rs := (skipBadR loc buf (lineEnd + 1 - p) p).2 with hrs
    have hq1 : p ≤ q := by rw [hq]; exact skipBadR_ge loc buf _ p
    have hq2 : q ≤ lineEnd := by
      rw [hq]
      exact skipBadR_le loc buf _ p lineEnd h2 (by omega) hstop
    have hqr : ∀ r ∈ rs, p ≤ r ∧ r ≤ q := by
      intro r hr
      rw [hrs] at hr
      rw [hq]
      exact skipBadR_reads loc buf _ p r hr
    set subj1 := if q = p then subject else q with hsubj1
    set bol1 := if q = p then bol else false with hbol1
    have hs1a : subject ≤ subj1 := by
      rw [hsubj1]
      split_ifs with hqp
      · exact le_refl subject
      · omega
    have hs1b : subj1 ≤ q := by
      rw [hsubj1]
      split_ifs with hqp
      · omega
      · exact le_refl q
    have hs1c : subj1 ≤ lineEnd := le_trans hs1b hq2
    have hrdmain : ∀ r ∈ rs ++ regionReads subj1 (lineEnd - subj1),
        r ≤ lineEnd := by
      intro r hr
      rcases List.mem_append.mp hr with h | h
      · exact le_trans (hqr r h).2 hq2
      · have := regionReads_mem h
        omega
    by_cases hpe : q = lineEnd
    · rw [if_pos hpe] at hres
      injection hres with hA hB
      subst hA
      subst hB
      refine ⟨_, subj1, rfl, hs1a, hs1c, by simp, ?_⟩
      intro r hr
      exact le_trans (hqr r hr).2 hq2
    · rw [if_neg hpe] at hres
      cases hE : eng (regionOf buf subj1 (lineEnd - subj1)) (q - subj1)
          (!bol1) false with
      | found s t =>
        rw [hE] at hres
        injection hres with hA hB
        subst hA
        subst hB
        exact ⟨_, subj1, rfl, hs1a, hs1c, by simp, hrdmain⟩
      | «nomatch» =>
        rw [hE] at hres
        injection hres with hA hB
        subst hA
        subst hB
        exact ⟨_, subj1, rfl, hs1a, hs1c, by simp, hrdmain⟩
      | fatal c =>
        rw [hE] at hres
        injection hres with hA hB
        subst hA
        subst hB
        exact ⟨_, subj1, rfl, hs1a, hs1c, by simp, hrdmain⟩
      | barrier vb =>
        simp only [hE] at hres
        have hvb : vb < lineEnd - subj1 := by
          have h5 := heng _ _ _ _ _ hE
          rwa [regionOf_length] at h5
        cases miu with
        | true =>
          rw [if_pos rfl] at hres
          injection hres with hA hB
          subst hA
          subst hB
          exact ⟨_, subj1, rfl, hs1a, hs1c, by simp, hrdmain⟩
        | false =>
          rw [if_neg Bool.false_ne_true] at hres
          have hrd2 : ∀ r ∈ (rs ++ regionReads subj1 (lineEnd - subj1)) ++
              regionReads subj1 vb, r ≤ lineEnd := by
            intro r hr
            rcases List.mem_append.mp hr with h | h
            · exact hrdmain r h
            · have := regionReads_mem h
              omega
          by_cases hov : q - subj1 ≤ vb
          · rw [if_pos hov] at hres
            by_cases hz : vb = 0
            · simp only [if_pos hz] at hres
              by_cases hnm : withSub (emptyM bol1) vb 0 = EngOut.nomatch
              · rw [if_pos hnm] at hres
                rcases hrec : innerLoop false loc buf eng emptyM lineEnd n
                    (subj1 + vb + 1) (subj1 + vb + 1) false with ⟨res2, st4⟩
                rw [hrec] at hres
                injection hres with hA hB
                subst hA
                subst hB
                obtain ⟨e, subj2, he2, hb1, hb2, hb3, hb4⟩ :=
                  ih (subj1 + vb + 1) (subj1 + vb + 1) false res2 st4 hrec
                    (le_refl _) (by omega) (by omega)
                refine ⟨e, subj2, he2, by omega, hb2, ?_, ?_⟩
                · simp only [Stats.add, Stats_add_calls, Stats_add_barriers]
                  omega
                · intro r hr
                  simp only [Stats_add_reads] at hr
                  rcases List.mem_append.mp hr with h | h
                  · exact hrdmain r h
                  · exact hb4 r h
              · rw [if_neg hnm] at hres
                injection hres with hA hB
                subst hA
                subst hB
                exact ⟨_, subj1, rfl, hs1a, hs1c, by simp, hrdmain⟩
            · simp only [if_neg hz] at hres
              by_cases hnm : eng (regionOf buf subj1 vb) (q - subj1) (!bol1)
                  true = EngOut.nomatch
              · rw [if_pos hnm] at hres
                rcases hrec : innerLoop false loc buf eng emptyM lineEnd n
                    (subj1 + vb + 1) (subj1 + vb + 1) false with ⟨res2, st4⟩
                rw [hrec] at hres
                injection hres with hA hB
                subst hA
                subst hB
                obtain ⟨e, subj2, he2, hb1, hb2, hb3, hb4⟩ :=
                  ih (subj1 + vb + 1) (subj1 + vb + 1) false res2 st4 hrec
                    (le_refl _) (by omega) (by omega)
                refine ⟨e, subj2, he2, by omega, hb2, ?_, ?_⟩
                · simp only [Stats.add, Stats_add_calls, Stats_add_barriers]
                  omega
                · intro r hr
                  simp only [Stats_add_reads] at hr
                  rcases List.mem_append.mp hr with h | h
                  · exact hrd2 r h
                  · exact hb4 r h
              · rw [if_neg hnm] at hres
                injection hres with hA hB
                subst hA
                subst hB
                exact ⟨_, subj1, rfl, hs1a, hs1c, by simp, hrd2⟩
          · rw [if_neg hov] at hres
            rcases hrec : innerLoop false loc buf eng emptyM lineEnd n
                q (subj1 + vb + 1) bol1 with ⟨res2, st4⟩
            rw [hrec] at hres
            injection hres with hA hB
            subst hA
            subst hB
            obtain ⟨e, subj2, he2, hb1, hb2, hb3, hb4⟩ :=
              ih q (subj1 + vb + 1) bol1 res2 st4 hrec
                (by omega) hq2 (by omega)
            refine ⟨e, subj2, he2, by omega, hb2, ?_, ?_⟩
            · simp only [Stats.add, Stats_add_calls, Stats_add_barriers]
              omega
            · intro r hr
              simp only [Stats_add_reads] at hr
              rcases List.mem_append.mp hr with h | h
              · exact hrdmain r h
              · exact hb4 r h

/-- Main invariant of the outer (per-line) loop: with a nonempty buffer
ending in the line terminator, a locale that never classifies the terminator
as an impossible lead byte, and a sane engine, the loop terminates within
fuel `size - p` (each iteration consumes one line), makes at most
(number of `eol` bytes from `p`) + 2 × (barrier reports) engine invocations,
and reads only positions inside `[0, size)`. -/
lemma outerLoop_spec (miu : Bool) (loc : Nat → Int) (buf : Int → Nat)
    (eng : Engine) (emptyM : Bool → EngOut) (eol : Nat) (size : Nat)
    (hsz : 1 ≤ size)
    (hend : buf ((size - 1 : Nat) : Int) = eol)
    (hloc : loc eol ≠ -1)
    (heng : ∀ reg o nb ne vb, eng reg o nb ne = EngOut.barrier vb →
      vb < reg.length) :
    ∀ (fuel p subject lineStart : Nat) (bol : Bool) (res : OuterRes)
      (st : Stats),
      outerLoop miu loc buf eng emptyM eol size fuel p subject lineStart bol
        = (res, st) →
      subject ≤ p → p ≤ size - 1 → size ≤ p + fuel →
      res ≠ .adminFuelOut ∧ res ≠ .adminNoEol ∧
      st.calls ≤ countEol buf eol p (size - p) + 2 * st.barriers ∧
      ∀ r ∈ st.reads, r < size := by
  intro fuel
  induction fuel with
  | zero => intro p subject lineStart bol res st h h1 h2 h3; omega
  | succ n ih =>
    intro p subject lineStart bol res st hres h1 h2 h3
    simp only [outerLoop] at hres
    obtain ⟨le, hle, hple, hlesz, hleeol, hfirst, hfreads⟩ :=
      findEolR_spec buf eol (size - p) p (size - 1) h2 (by omega) hend
    rcases hfind : findEolR buf eol (size - p) p with ⟨fr, frs⟩
    have hfr : fr = some le := by
      rw [hfind] at hle
      exact hle
    subst hfr
    simp only [hfind] at hres
    have hfreads2 : ∀ r ∈ frs, p ≤ r ∧ r ≤ le := by
      intro r hr
      refine hfreads r ?_
      rw [hfind]
      exact hr
    have hstop : loc (buf (le : Int)) ≠ -1 := by
      rw [hleeol]
      exact hloc
    have hcsplit : countEol buf eol p (size - p)
        = 1 + countEol buf eol (le + 1) (size - (le + 1)) := by
      have h4 := countEol_split buf eol (size - p) p le hple (by omega) hleeol
        hfirst
      have h5 : p + (size - p) - (le + 1) = size - (le + 1) := by omega
      rw [h5] at h4
      exact h4
    rcases hinn : innerLoop miu loc buf eng emptyM le (le + 2 - subject)
        p subject bol with ⟨ires, ist⟩
    simp only [hinn] at hres
    obtain ⟨e, subj2, hie, hib1, hib2, hib3, hib4⟩ :=
      innerLoop_spec miu loc buf eng emptyM le hstop heng (le + 2 - subject)
        p subject bol ires ist hinn h1 hple (by omega)
    subst hie
    have hrd1 : ∀ r ∈ (Stats.add ⟨0, 0, frs⟩ ist).reads, r < size := by
      intro r hr
      simp only [Stats_add_reads] at hr
      rcases List.mem_append.mp hr with hr | hr
      · have h6 := hfreads2 r hr
        omega
      · have h6 := hib4 r hr
        omega
    have hcall1 : (Stats.add ⟨0, 0, frs⟩ ist).calls
        ≤ countEol buf eol p (size - p)
          + 2 * (Stats.add ⟨0, 0, frs⟩ ist).barriers := by
      simp only [Stats.add, Stats_add_calls, Stats_add_barriers]
      omega
    cases e with
    | found s t =>
      injection hres with hA hB
      subst hA
      subst hB
      exact ⟨by simp, by simp, hcall1, hrd1⟩
    | barrier vb =>
      injection hres with hA hB
      subst hA
      subst hB
      exact ⟨by simp, by simp, hcall1, hrd1⟩
    | fatal c =>
      injection hres with hA hB
      subst hA
      subst hB
      exact ⟨by simp, by simp, hcall1, hrd1⟩
    | «nomatch» =>
      by_cases hlt : le + 1 < size
      · simp only [if_pos hlt] at hres
        rcases hrec : outerLoop miu loc buf eng emptyM eol size n
            (le + 1) (le + 1) (le + 1) true with ⟨res2, st4⟩
        simp only [hrec] at hres
        injection hres with hA hB
        subst hA
        subst hB
        obtain ⟨ho1, ho2, ho3, ho4⟩ :=
          ih (le + 1) (le + 1) (le + 1) true res2 st4 hrec (le_refl _)
            (by omega) (by omega)
        refine ⟨ho1, ho2, ?_, ?_⟩
        · simp only [Stats.add, Stats_add_calls, Stats_add_barriers]
          omega
        · intro r hr
          simp only [Stats.add, Stats_add_reads] at hr
          simp only [List.append_assoc, List.mem_append] at hr
          rcases hr with hr | hr | hr
          · have h6 := hfreads2 r hr
            omega
          · have h6 := hib4 r hr
            omega
          · exact ho4 r hr
      · simp only [if_neg hlt] at hres
        injection hres with hA hB
        subst hA
        subst hB
        exact ⟨by simp, by simp, hcall1, hrd1⟩

/-- Splitting an `eol` count over adjacent ranges. -/
lemma countEol_append (buf : Int → Nat) (eol : Nat) :
    ∀ (a b p : Nat), countEol buf eol p (a + b)
      = countEol buf eol p a + countEol buf eol (p + a) b := by
  intro a
  induction a with
  | zero =>
    intro b p
    simp [countEol]
  | succ a ih =>
    intro b p
    have h1 : a + 1 + b = (a + b) + 1 := by omega
    rw [h1]
    simp only [countEol]
    rw [ih b (p + 1)]
    have h2 : p + 1 + a = p + (a + 1) := by omega
    rw [h2]
    omega

/-- A reported first-bad-byte index lies inside the list. -/
lemma firstBadIdx_lt : ∀ {l : List Nat} {i : Nat},
    firstBadIdx l = some i → i < l.length := by
  intro l
  induction l with
  | nil => intro i h; simp [firstBadIdx] at h
  | cons b r ih =>
    intro i h
    simp only [firstBadIdx] at h
    split_ifs at h with hb
    · injection h with h1
      simp only [List.length_cons]
      omega
    · rcases ho : firstBadIdx r with _ | j
      · rw [ho] at h
        simp at h
      · rw [ho] at h
        simp at h
        have h2 := ih ho
        simp only [List.length_cons]
        omega

/-- `engBar` satisfies the engine sanity condition: every reported barrier
lies inside the searched region. -/
lemma engBar_sane : ∀ reg o nb ne vb,
    engBar reg o nb ne = EngOut.barrier vb → vb < reg.length := by
  intro reg o nb ne vb h
  simp only [engBar] at h
  by_cases hne : ne = true
  · rw [if_pos hne] at h
    exact absurd h (by simp)
  · rw [if_neg hne] at h
    rcases ho : firstBadIdx reg with _ | j
    · rw [ho] at h
      simp at h
    · rw [ho] at h
      injection h with h1
      subst h1
      exact firstBadIdx_lt ho

/-- Literal engines never report barriers, so they satisfy the sanity
condition vacuously. -/
lemma litEng_sane (pat : List Nat) : ∀ reg o nb ne vb,
    litEng pat reg o nb ne = EngOut.barrier vb → vb < reg.length := by
  intro reg o nb ne vb h
  simp only [litEng] at h
  rcases ho : litScanAux pat (reg.drop o) o with _ | j
  · rw [ho] at h
    simp at h
  · rw [ho] at h
    simp at h

/-- C1 amended: for every pattern and every nonempty buffer whose final byte
is the line terminator (with the terminator not classified as an impossible
lead byte, a scan start inside the buffer, and an engine whose barrier
reports lie inside the searched region), `Pexecute` terminates — the
internally supplied fuel is never exhausted, because every inner iteration
either breaks or advances `subject` past at least one byte
(`subject += valid_prefix_len + 1` after a barrier) and every outer
iteration consumes a line — and the number of engine invocations is at most
(number of line terminators in the buffer) + 2 × (number of encoding-barrier
reports): linear, not quadratic, in buffer size.  (The factor 2, forced by
the bounded re-match that can follow each barrier report, corrects the
claim's `lines + barriers` bound.) -/
theorem Pexecute_terminates_linear_calls (miu : Bool) (loc : Nat → Int)
    (eol : Nat) (eng : Engine) (emptyM : Bool → EngOut) (buf : Int → Nat)
    (size : Nat) (startPtr : Option Nat)
    (hsz : 1 ≤ size)
    (hend : buf ((size - 1 : Nat) : Int) = eol)
    (hloc : loc eol ≠ -1)
    (hstart : startPtr.getD 0 < size)
    (heng : ∀ reg o nb ne vb, eng reg o nb ne = EngOut.barrier vb →
      vb < reg.length) :
    (Pexecute miu loc eol eng emptyM buf size startPtr).res ≠ .adminFuelOut ∧
    (Pexecute miu loc eol eng emptyM buf size startPtr).res ≠ .adminNoEol ∧
    (Pexecute miu loc eol eng emptyM buf size startPtr).calls
      ≤ countEol buf eol 0 size
        + 2 * (Pexecute miu loc eol eng emptyM buf size startPtr).barriers := by
  rcases ho : outerLoop miu loc buf eng emptyM eol size (size + 1)
      (startPtr.getD 0) 0 0 (buf ((startPtr.getD 0 : Int) - 1) == eol)
    with ⟨r, st⟩
  obtain ⟨hr1, hr2, hr3, hr4⟩ := outerLoop_spec miu loc buf eng emptyM eol
    size hsz hend hloc heng (size + 1) (startPtr.getD 0) 0 0
    (buf ((startPtr.getD 0 : Int) - 1) == eol) r st ho
    (Nat.zero_le _) (by omega) (by omega)
  have hge : countEol buf eol (startPtr.getD 0) (size - startPtr.getD 0)
      ≤ countEol buf eol 0 size := by
    have h7 := countEol_append buf eol (startPtr.getD 0)
      (size - startPtr.getD 0) 0
    have h8 : startPtr.getD 0 + (size - startPtr.getD 0) = size := by omega
    rw [h8] at h7
    simp only [Nat.zero_add] at h7
    omega
  cases r with
  | foundRaw raw =>
    refine ⟨by simp [Pexecute, ho], by simp [Pexecute, ho], ?_⟩
    simp only [Pexecute, ho]
    omega
  | notFound =>
    refine ⟨by simp [Pexecute, ho], by simp [Pexecute, ho], ?_⟩
    simp only [Pexecute, ho]
    omega
  | engineError e =>
    refine ⟨by simp [Pexecute, ho], by simp [Pexecute, ho], ?_⟩
    simp only [Pexecute, ho]
    omega
  | adminFuelOut => exact absurd rfl hr1
  | adminNoEol => exact absurd rfl hr2

/-- Closed instance of `Pexecute_terminates_linear_calls` on the barrier
scenario buffer. -/
theorem Pexecute_terminates_linear_calls_witness :
    (Pexecute false utf8sbclen 10 engBar (pcEmpty engBar) bufBar 4 none).res
      ≠ .adminFuelOut ∧
    (Pexecute false utf8sbclen 10 engBar (pcEmpty engBar) bufBar 4 none).calls
      ≤ countEol bufBar 10 0 4
        + 2 * (Pexecute false utf8sbclen 10 engBar (pcEmpty engBar) bufBar 4
                none).barriers :=
  ⟨(Pexecute_terminates_linear_calls false utf8sbclen 10 engBar
      (pcEmpty engBar) bufBar 4 none (by decide) (by decide) (by decide)
      (by decide) engBar_sane).1,
   (Pexecute_terminates_linear_calls false utf8sbclen 10 engBar
      (pcEmpty engBar) bufBar 4 none (by decide) (by decide) (by decide)
      (by decide) engBar_sane).2.2⟩

/-- C2 amended: under the same preconditions, every byte position read by
`Pexecute` lies in `[buffer - 1, buffer + size)`; the single possibly
out-of-range position is `buffer + scan_start - 1`, read first, once, by the
initial begin-of-line computation `bol = p[-1] == eolbyte` (position `-1`
exactly when scanning starts at the buffer's first byte); all remaining
reads lie inside `[buffer, buffer + size)`. -/
theorem Pexecute_reads_in_extended_range (miu : Bool) (loc : Nat → Int)
    (eol : Nat) (eng : Engine) (emptyM : Bool → EngOut) (buf : Int → Nat)
    (size : Nat) (startPtr : Option Nat)
    (hsz : 1 ≤ size)
    (hend : buf ((size - 1 : Nat) : Int) = eol)
    (hloc : loc eol ≠ -1)
    (hstart : startPtr.getD 0 < size)
    (heng : ∀ reg o nb ne vb, eng reg o nb ne = EngOut.barrier vb →
      vb < reg.length) :
    (Pexecute miu loc eol eng emptyM buf size startPtr).reads.head?
      = some (((startPtr.getD 0 : Nat) : Int) - 1) ∧
    ∀ r ∈ (Pexecute miu loc eol eng emptyM buf size startPtr).reads,
      -1 ≤ r ∧ r < (size : Int) := by
  rcases ho : outerLoop miu loc buf eng emptyM eol size (size + 1)
      (startPtr.getD 0) 0 0 (buf ((startPtr.getD 0 : Int) - 1) == eol)
    with ⟨r, st⟩
  obtain ⟨hr1, hr2, hr3, hr4⟩ := outerLoop_spec miu loc buf eng emptyM eol
    size hsz hend hloc heng (size + 1) (startPtr.getD 0) 0 0
    (buf ((startPtr.getD 0 : Int) - 1) == eol) r st ho
    (Nat.zero_le _) (by omega) (by omega)
  have hmem : ∀ r2 ∈ (((startPtr.getD 0 : Nat) : Int) - 1)
      :: st.reads.map Int.ofNat, -1 ≤ r2 ∧ r2 < (size : Int) := by
    intro r2 hr
    rcases List.mem_cons.mp hr with rfl | hr
    · constructor
      · omega
      · have : startPtr.getD 0 < size := hstart
        omega
    · obtain ⟨x, hx, hxr⟩ := List.mem_map.mp hr
      subst hxr
      have h9 := hr4 x hx
      simp only [Int.ofNat_eq_coe]
      constructor
      · omega
      · omega
  cases r with
  | foundRaw raw =>
    refine ⟨?_, ?_⟩ <;> simp only [Pexecute, ho]
    · rfl
    · exact hmem
  | notFound =>
    refine ⟨?_, ?_⟩ <;> simp only [Pexecute, ho]
    · rfl
    · exact hmem
  | engineError e =>
    refine ⟨?_, ?_⟩ <;> simp only [Pexecute, ho]
    · rfl
    · exact hmem
  | adminFuelOut =>
    refine ⟨?_, ?_⟩ <;> simp only [Pexecute, ho]
    · rfl
    · exact hmem
  | adminNoEol =>
    refine ⟨?_, ?_⟩ <;> simp only [Pexecute, ho]
    · rfl
    · exact hmem

/-- Closed instance of `Pexecute_reads_in_extended_range` on the
invalid-byte scenario buffer. -/
theorem Pexecute_reads_in_extended_range_witness :
    (Pexecute false utf8sbclen 10 litCat (pcEmpty litCat) bufC7 5
        (some 0)).reads.head?
      = some ((((some 0 : Option Nat).getD 0 : Nat) : Int) - 1) :=
  (Pexecute_reads_in_extended_range false utf8sbclen 10 litCat
    (pcEmpty litCat) bufC7 5 (some 0) (by decide) (by decide) (by decide)
    (by decide) (litEng_sane [99, 97, 116])).1

/-- Byte-level consequences of a successful UTF-8 decode: the length is
1–4, the lead byte is in the range announcing that length, and the trailing
bytes are continuations. -/
lemma utf8declen_elim {buf : Int → Nat} {s avail : Int} {L : Nat}
    (h : utf8declen buf s avail = some L) :
    (L = 1 ∧ buf s % 256 < 128) ∨
    (L = 2 ∧ 194 ≤ buf s % 256 ∧ buf s % 256 < 224 ∧
      isCont (buf (s + 1) % 256)) ∨
    (L = 3 ∧ 224 ≤ buf s % 256 ∧ buf s % 256 < 240 ∧
      isCont (buf (s + 1) % 256) ∧ isCont (buf (s + 2) % 256)) ∨
    (L = 4 ∧ 240 ≤ buf s % 256 ∧ buf s % 256 < 245 ∧
      isCont (buf (s + 1) % 256) ∧ isCont (buf (s + 2) % 256) ∧
      isCont (buf (s + 3) % 256)) := by
  simp only [utf8declen] at h
  by_cases h1 : buf s % 256 < 128
  · rw [if_pos h1] at h
    by_cases h2 : 1 ≤ avail
    · rw [if_pos h2] at h
      injection h with hL
      exact Or.inl ⟨hL.symm, h1⟩
    · rw [if_neg h2] at h
      exact absurd h (by simp)
  · rw [if_neg h1] at h
    by_cases h2 : buf s % 256 < 194
    · rw [if_pos h2] at h
      exact absurd h (by simp)
    · rw [if_neg h2] at h
      by_cases h3 : buf s % 256 < 224
      · rw [if_pos h3] at h
        by_cases h4 : 2 ≤ avail ∧ isCont (buf (s + 1) % 256)
        · rw [if_pos h4] at h
          injection h with hL
          exact Or.inr (Or.inl ⟨hL.symm, by omega, h3, h4.2⟩)
        · rw [if_neg h4] at h
          exact absurd h (by simp)
      · rw [if_neg h3] at h
        by_cases h5 : buf s % 256 < 240
        · rw [if_pos h5] at h
          by_cases h6 : 3 ≤ avail ∧ isCont (buf (s + 1) % 256) ∧
              isCont (buf (s + 2) % 256) ∧
              (buf s % 256 = 224 → 160 ≤ buf (s + 1) % 256) ∧
              (buf s % 256 = 237 → buf (s + 1) % 256 < 160)
          · rw [if_pos h6] at h
            injection h with hL
            exact Or.inr (Or.inr (Or.inl
              ⟨hL.symm, by omega, h5, h6.2.1, h6.2.2.1⟩))
          · rw [if_neg h6] at h
            exact absurd h (by simp)
        · rw [if_neg h5] at h
          by_cases h7 : buf s % 256 < 245
          · rw [if_pos h7] at h
            by_cases h8 : 4 ≤ avail ∧ isCont (buf (s + 1) % 256) ∧
                isCont (buf (s + 2) % 256) ∧ isCont (buf (s + 3) % 256) ∧
                (buf s % 256 = 240 → 144 ≤ buf (s + 1) % 256) ∧
                (buf s % 256 = 244 → buf (s + 1) % 256 < 144)
            · rw [if_pos h8] at h
              injection h with hL
              exact Or.inr (Or.inr (Or.inr
                ⟨hL.symm, by omega, h7, h8.2.1, h8.2.2.1, h8.2.2.2.1⟩))
            · rw [if_neg h8] at h
              exact absurd h (by simp)
          · rw [if_neg h7] at h
            exact absurd h (by simp)

/-- C9 counterexample: on the valid UTF-8 buffer `é` (`0xC3 0xA9`) with the
cached boundary pointer at position 0 and the cursor at the character
boundary 2, the claim predicts `mb_goback` returns 2 (the distance back to
the start of the character containing the byte immediately before the
cursor), but it returns 0: per its own documentation it reports the distance
to the start of the character containing the byte *at* the cursor, which at
a boundary is 0. -/
theorem mb_goback_boundary_returns_zero :
    utf8declen bufE 0 2 = some 2 ∧
    (mb_goback true (fun _ _ => 1) bufE 0 2 2).dist = 0 ∧
    ((0 : Int) ≠ 2 - 0) := by
  refine ⟨by decide, by decide, by decide⟩

/-- C9 amended: in a UTF-8 locale, for a valid character `[b, b+L)` of the
buffer (`m ≤ b` the cached boundary, `c = b + L` the cursor, a character
boundary strictly after `m`), `mb_goback` applied to the byte immediately
before the cursor — as `wordchar_prev` applies it after its `*--cur` — 
returns the distance from that byte back to the start of the character
containing it, and decoding one character forward from that start lands
exactly at the original cursor; at the cursor itself (a character boundary,
so not a continuation byte) `mb_goback` returns 0, not the previous
character's length as the claim stated. -/
theorem mb_goback_prev_char_round_trip (buf : Int → Nat)
    (mbClen : Int → Int → Int) (m b c endp : Int) (L : Nat)
    (hdec : utf8declen buf b (endp - b) = some L)
    (hc : c = b + L)
    (hm : m ≤ b)
    (hmc : m < c) :
    (mb_goback true mbClen buf m (c - 1) endp).dist = c - 1 - b ∧
    utf8declen buf (c - 1 - (mb_goback true mbClen buf m (c - 1) endp).dist)
        (endp - (c - 1 - (mb_goback true mbClen buf m (c - 1) endp).dist))
      = some L ∧
    (c - 1 - (mb_goback true mbClen buf m (c - 1) endp).dist) + L = c ∧
    (¬ isCont (buf c % 256) →
      (mb_goback true mbClen buf m c endp).dist = 0) := by
  have hbound : ¬ isCont (buf c % 256) →
      (mb_goback true mbClen buf m c endp).dist = 0 := by
    intro hnc
    simp only [mb_goback]
    rw [if_neg (by omega : ¬ c ≤ m), if_pos trivial, if_neg hnc]
    simp
  have hdist : (mb_goback true mbClen buf m (c - 1) endp).dist
      = c - 1 - b := by
    rcases utf8declen_elim hdec with ⟨hL, hb0⟩ | ⟨hL, hb0a, hb0b, hc1⟩ |
      ⟨hL, hb0a, hb0b, hc1, hc2⟩ | ⟨hL, hb0a, hb0b, hc1, hc2, hc3⟩
    · -- L = 1: the byte before the cursor is a single-byte character.
      subst hL
      push_cast at hc
      have hcb : c - 1 = b := by omega
      rw [hcb]
      rcases eq_or_lt_of_le hm with rfl | hmb
      · simp only [mb_goback]
        rw [if_pos (le_refl m)]
      · have hnc : ¬ isCont (buf b % 256) := by
          simp only [isCont]
          omega
        simp only [mb_goback]
        rw [if_neg (by omega : ¬ b ≤ m), if_pos trivial, if_neg hnc]
        simp
    · -- L = 2.
      subst hL
      push_cast at hc
      have hcb : c - 1 = b + 1 := by omega
      rw [hcb]
      have hnc : ¬ isCont (buf b % 256) := by
        simp only [isCont]
        omega
      have hfnc : findNonCont buf (b + 1) = some 1 := by
        simp only [findNonCont]
        rw [show b + 1 - 1 = b from by ring, if_pos hnc]
      simp only [mb_goback]
      rw [if_neg (by omega : ¬ b + 1 ≤ m), if_pos trivial, if_pos hc1]
      simp only [hfnc]
      rw [show b + 1 - ((1 : Nat) : Int) = b from by push_cast; ring]
      rw [if_pos (show 255 - buf b % 256 < 2 ^ (7 - 1) from by norm_num; omega)]
      simp only [hdec]
      rw [if_neg (show ¬ b + ((2 : Nat) : Int) = b + 1 from by push_cast; omega)]
    · -- L = 3.
      subst hL
      push_cast at hc
      have hcb : c - 1 = b + 2 := by omega
      rw [hcb]
      have hnc : ¬ isCont (buf b % 256) := by
        simp only [isCont]
        omega
      have hfnc : findNonCont buf (b + 2) = some 2 := by
        simp only [findNonCont]
        rw [show b + 2 - 1 = b + 1 from by ring, if_neg (by simpa using hc1)]
        rw [show b + 2 - 2 = b from by ring, if_pos hnc]
      simp only [mb_goback]
      rw [if_neg (by omega : ¬ b + 2 ≤ m), if_pos trivial, if_pos hc2]
      simp only [hfnc]
      rw [show b + 2 - ((2 : Nat) : Int) = b from by push_cast; ring]
      rw [if_pos (show 255 - buf b % 256 < 2 ^ (7 - 2) from by norm_num; omega)]
      simp only [hdec]
      rw [if_neg (show ¬ b + ((3 : Nat) : Int) = b + 2 from by push_cast; omega)]
    · -- L = 4.
      subst hL
      push_cast at hc
      have hcb : c - 1 = b + 3 := by omega
      rw [hcb]
      have hnc : ¬ isCont (buf b % 256) := by
        simp only [isCont]
        omega
      have hfnc : findNonCont buf (b + 3) = some 3 := by
        simp only [findNonCont]
        rw [show b + 3 - 1 = b + 2 from by ring, if_neg (by simpa using hc2)]
        rw [show b + 3 - 2 = b + 1 from by ring, if_neg (by simpa using hc1)]
        rw [show b + 3 - 3 = b from by ring, if_pos hnc]
      simp only [mb_goback]
      rw [if_neg (by omega : ¬ b + 3 ≤ m), if_pos trivial, if_pos hc3]
      simp only [hfnc]
      rw [show b + 3 - ((3 : Nat) : Int) = b from by push_cast; ring]
      rw [if_pos (show 255 - buf b % 256 < 2 ^ (7 - 3) from by norm_num; omega)]
      simp only [hdec]
      rw [if_neg (show ¬ b + ((4 : Nat) : Int) = b + 3 from by push_cast; omega)]
  refine ⟨hdist, ?_, ?_, hbound⟩
  · rw [hdist, show c - 1 - (c - 1 - b) = b from by ring]
    exact hdec
  · rw [hdist, show c - 1 - (c - 1 - b) = b from by ring]
    omega

/-- Closed instance of `mb_goback_prev_char_round_trip` on the two-byte
character `é`. -/
theorem mb_goback_prev_char_round_trip_witness :
    (mb_goback true (fun _ _ => 1) bufE 0 1 2).dist = 1 ∧
    utf8declen bufE (1 - 1) (2 - (1 - 1)) = some 2 :=
  ⟨by decide,
   by
    have h := (mb_goback_prev_char_round_trip bufE (fun _ _ => 1) 0 0 2 2 2
      (by decide) (by decide) (by decide) (by decide)).2.1
    simpa using h⟩

end GrepPcre
